import Mathlib

/-!
Verification of the caching and streaming-generation core of the
Streamlit/HuggingFace chat client.

The embedding mirrors `src/api/huggingface.py` (classes `SimpleCache`,
`HuggingFaceAPI`) and `src/cache/memory_cache.py` / `src/cache/redis_cache.py`.

Modelling conventions:
* Python `time.time()` timestamps are modelled as `Nat` ticks, passed
  explicitly to each operation (`now`).
* A Python `dict` is modelled as an insertion-ordered association list with
  unique keys; `dict` assignment overwrites in place (keeping the original
  position), and new keys are appended at the end, exactly as CPython does.
* `min(self.cache.items(), key=lambda x: x[1][1])` returns the first entry
  with minimal timestamp; this is `firstMinE` below (a left fold that keeps
  the current candidate unless a strictly smaller timestamp appears).
* A Python exception escaping a method is modelled by `Except.error`.
-/

/-- A cache entry `(key, value, insertedAt)`, the value type of the Python
dict `self.cache: Dict[str, Tuple[str, float]]` together with its key. -/
abbrev Entry := String × String × Nat

/-- First-match association lookup, the read side of the Python dict. -/
def lookupE : List Entry → String → Option (String × Nat)
  | [], _ => none
  | (k', v, t) :: es, k => if k' = k then some (v, t) else lookupE es k

/-- Python dict assignment `self.cache[key] = (value, now)`: overwrite in
place when the key is present, append otherwise. -/
def setValE : List Entry → String → String → Nat → List Entry
  | [], k, v, t => [(k, v, t)]
  | (k', v', t') :: es, k, v, t =>
    if k' = k then (k, v, t) :: es else (k', v', t') :: setValE es k v t

/-- Python `del self.cache[k]`: with unique keys, removing every entry whose
key is `k` removes exactly the one entry. -/
def eraseKeyE : List Entry → String → List Entry
  | [], _ => []
  | e :: es, k => if e.1 = k then eraseKeyE es k else e :: eraseKeyE es k

/-- One step of Python's `min` scan: keep the current candidate unless the
next item's timestamp is strictly smaller. -/
def minStepE (best x : Entry) : Entry :=
  if x.2.2 < best.2.2 then x else best

/-- `min(self.cache.items(), key=lambda x: x[1][1])`: the first entry with
minimal `insertedAt`; `none` exactly when the dict is empty (in which case
Python's `min` raises `ValueError`). -/
def firstMinE : List Entry → Option Entry
  | [] => none
  | e :: es => some (es.foldl minStepE e)

/-- State of `MemoryCache` in `src/cache/memory_cache.py` (the `SimpleCache`
class in `src/api/huggingface.py` has byte-for-byte identical method bodies,
so this one model covers both): the dict, `max_size` and the fixed default
`ttl` the instance was created with. -/
structure MemCache where
  entries : List Entry
  maxSize : Nat
  ttl : Nat
deriving Repr, DecidableEq

/-- `MemoryCache.get` / `SimpleCache.get`: return the value if present and
`now - timestamp < self.ttl`; delete the entry and return `None` when it is
present but expired; return `None` when absent.  The returned pair is
(result, state after the call). -/
def MemCache.get (c : MemCache) (key : String) (now : Nat) :
    Option String × MemCache :=
  match lookupE c.entries key with
  | some (v, ts) =>
    if now - ts < c.ttl then (some v, c)
    else (none, { c with entries := eraseKeyE c.entries key })
  | none => (none, c)

/-- `MemoryCache.setex` / `SimpleCache.setex`: if `len(self.cache) >=
self.max_size`, evict the entry with the smallest timestamp (Python `min`
raises `ValueError` on an empty dict, modelled by `.error`), then store
`(value, now)` under `key`.  The `expireTm` argument is accepted and ignored,
as in the source. -/
def MemCache.setex (c : MemCache) (key : String) (expireTm : Nat)
    (value : String) (now : Nat) : Except String MemCache :=
  if c.maxSize ≤ c.entries.length then
    match firstMinE c.entries with
    | none => .error "ValueError: min() arg is an empty sequence"
    | some oldest =>
      .ok { c with entries := setValE (eraseKeyE c.entries oldest.1) key value now }
  else .ok { c with entries := setValE c.entries key value now }

/-- `MemoryCache.clear` / `SimpleCache.clear`. -/
def MemCache.clear (c : MemCache) : MemCache :=
  { c with entries := [] }

/-- Fold a sequence of `(key, value, now)` triples through `setex` (the
ignored `expire_time` argument is passed as `0`). -/
def runSetex (c : MemCache) (ops : List (String × String × Nat)) :
    Except String MemCache :=
  ops.foldlM (fun acc op => acc.setex op.1 0 op.2.1 op.2.2) c

/-- `RedisCache.get`: the remote client either fails (`fails = true`, the
`except` branch) or reads the remote store; a failing read degrades to
`None`. -/
def redisGet (store : List (String × String)) (fails : Bool) (k : String) :
    Option String :=
  if fails then none else List.lookup k store

/-- Write side of the remote store used by `redisSetex`. -/
def setPair : List (String × String) → String → String → List (String × String)
  | [], k, v => [(k, v)]
  | (k', v') :: es, k, v =>
    if k' = k then (k, v) :: es else (k', v') :: setPair es k v

/-- `RedisCache.setex`: a failing write is a silent no-op (the `except`
branch swallows the client error). -/
def redisSetex (store : List (String × String)) (fails : Bool)
    (k v : String) : List (String × String) :=
  if fails then store else setPair store k v

/-- `RedisCache.clear`: `flushall`, a failing clear is a silent no-op. -/
def redisClear (store : List (String × String)) (fails : Bool) :
    List (String × String) :=
  if fails then store else []

/-! ### Association-list and fold lemmas -/

theorem lookupE_append_none {a b : List Entry} {k : String}
    (ha : lookupE a k = none) (hb : lookupE b k = none) :
    lookupE (a ++ b) k = none := by
  induction a with
  | nil => simpa using hb
  | cons e es ih =>
    obtain ⟨k', v, t⟩ := e
    simp only [lookupE, List.cons_append] at ha ⊢
    split at ha
    · exact absurd ha (by simp)
    · next h => simp only [if_neg h]; exact ih ha

theorem setValE_fresh {es : List Entry} {k : String}
    (h : lookupE es k = none) (v : String) (t : Nat) :
    setValE es k v t = es ++ [(k, v, t)] := by
  induction es with
  | nil => rfl
  | cons e es ih =>
    obtain ⟨k', v', t'⟩ := e
    simp only [lookupE] at h
    split at h
    · exact absurd h (by simp)
    · next hne =>
      simp only [setValE, if_neg hne, List.cons_append, List.cons.injEq, true_and]
      exact ih h

theorem lookupE_setValE_self (es : List Entry) (k : String) (v : String)
    (t : Nat) : lookupE (setValE es k v t) k = some (v, t) := by
  induction es with
  | nil => simp [setValE, lookupE]
  | cons e es ih =>
    obtain ⟨k', v', t'⟩ := e
    by_cases h : k' = k
    · simp [setValE, h, lookupE]
    · simp [setValE, h, lookupE, ih]

theorem lookupE_setValE_ne (es : List Entry) {k k' : String} (hne : k' ≠ k)
    (v : String) (t : Nat) :
    lookupE (setValE es k v t) k' = lookupE es k' := by
  induction es with
  | nil => simp [setValE, lookupE, Ne.symm hne]
  | cons e es ih =>
    obtain ⟨k₀, v₀, t₀⟩ := e
    by_cases h : k₀ = k
    · subst h
      simp [setValE, lookupE, Ne.symm hne]
    · simp only [setValE, if_neg h, lookupE, ih]

theorem setValE_length_present (es : List Entry) (k : String) (v : String)
    (t : Nat) (h : lookupE es k ≠ none) :
    (setValE es k v t).length = es.length := by
  induction es with
  | nil => simp [lookupE] at h
  | cons e es ih =>
    obtain ⟨k', v', t'⟩ := e
    by_cases hk : k' = k
    · simp [setValE, hk]
    · simp only [lookupE, if_neg hk] at h
      simp [setValE, hk, ih h]

theorem lookupE_eraseKeyE_self (es : List Entry) (k : String) :
    lookupE (eraseKeyE es k) k = none := by
  induction es with
  | nil => rfl
  | cons e es ih =>
    obtain ⟨k', v, t⟩ := e
    by_cases h : k' = k
    · simpa [eraseKeyE, h] using ih
    · simpa [eraseKeyE, lookupE, h] using ih

theorem lookupE_eraseKeyE_ne (es : List Entry) {k k' : String}
    (hne : k' ≠ k) : lookupE (eraseKeyE es k) k' = lookupE es k' := by
  induction es with
  | nil => rfl
  | cons e es ih =>
    obtain ⟨k₀, v, t⟩ := e
    by_cases h : k₀ = k
    · subst h
      simp only [eraseKeyE, if_pos rfl, ih]
      simp only [lookupE, if_neg (Ne.symm hne)]
      exact ih
    · simp only [eraseKeyE, if_neg h, lookupE, ih]

theorem eraseKeyE_fresh {es : List Entry} {k : String}
    (h : ∀ e ∈ es, e.1 ≠ k) : eraseKeyE es k = es := by
  induction es with
  | nil => rfl
  | cons e es ih =>
    have h1 : e.1 ≠ k := h e (by simp)
    have h2 : ∀ e' ∈ es, e'.1 ≠ k := fun e' he' => h e' (by simp [he'])
    simp only [eraseKeyE, if_neg h1, ih h2]

theorem foldlMin_of_ge : ∀ (l : List Entry) (best : Entry),
    (∀ e ∈ l, best.2.2 ≤ e.2.2) → l.foldl minStepE best = best := by
  intro l
  induction l with
  | nil => intro best _; rfl
  | cons x xs ih =>
    intro best h
    have hx : best.2.2 ≤ x.2.2 := h x (by simp)
    have : minStepE best x = best := by
      simp [minStepE, Nat.not_lt.mpr hx]
    rw [List.foldl_cons, this]
    exact ih best (fun e he => h e (by simp [he]))

theorem foldlMin_mem : ∀ (l : List Entry) (best : Entry),
    l.foldl minStepE best = best ∨ l.foldl minStepE best ∈ l := by
  intro l
  induction l with
  | nil => intro best; left; rfl
  | cons x xs ih =>
    intro best
    rw [List.foldl_cons]
    rcases ih (minStepE best x) with h | h
    · by_cases hlt : x.2.2 < best.2.2
      · right; rw [h]; simp [minStepE, hlt]
      · left; rw [h]; simp [minStepE, hlt]
    · right; exact List.mem_cons_of_mem _ h

theorem foldlMin_le : ∀ (l : List Entry) (best : Entry),
    (l.foldl minStepE best).2.2 ≤ best.2.2 ∧
      ∀ e ∈ l, (l.foldl minStepE best).2.2 ≤ e.2.2 := by
  intro l
  induction l with
  | nil => intro best; exact ⟨Nat.le_refl _, by simp⟩
  | cons x xs ih =>
    intro best
    rw [List.foldl_cons]
    obtain ⟨h1, h2⟩ := ih (minStepE best x)
    have hmin : (minStepE best x).2.2 ≤ best.2.2 ∧ (minStepE best x).2.2 ≤ x.2.2 := by
      by_cases hlt : x.2.2 < best.2.2
      · simp [minStepE, hlt]; omega
      · simp [minStepE, hlt]; omega
    refine ⟨Nat.le_trans h1 hmin.1, ?_⟩
    intro e he
    rcases List.mem_cons.mp he with rfl | he'
    · exact Nat.le_trans h1 hmin.2
    · exact h2 e he'

theorem firstMinE_mem {es : List Entry} {m : Entry}
    (h : firstMinE es = some m) : m ∈ es := by
  cases es with
  | nil => simp [firstMinE] at h
  | cons e es =>
    simp only [firstMinE, Option.some.injEq] at h
    rcases foldlMin_mem es e with h' | h'
    · rw [h'] at h; simp [← h]
    · rw [← h]; exact List.mem_cons_of_mem _ h'

theorem firstMinE_min {es : List Entry} {m : Entry}
    (h : firstMinE es = some m) : ∀ e ∈ es, m.2.2 ≤ e.2.2 := by
  cases es with
  | nil => simp [firstMinE] at h
  | cons e es =>
    simp only [firstMinE, Option.some.injEq] at h
    obtain ⟨h1, h2⟩ := foldlMin_le es e
    intro x hx
    rcases List.mem_cons.mp hx with rfl | hx'
    · rw [← h]; exact h1
    · rw [← h]; exact h2 x hx'

theorem firstMinE_sorted_head (e : Entry) (es : List Entry)
    (h : ∀ x ∈ es, e.2.2 ≤ x.2.2) : firstMinE (e :: es) = some e := by
  simp only [firstMinE, Option.some.injEq]
  exact foldlMin_of_ge es e h

theorem lookupE_none_of_not_key {es : List Entry} {k : String}
    (h : k ∉ es.map (·.1)) : lookupE es k = none := by
  induction es with
  | nil => rfl
  | cons e es ih =>
    obtain ⟨k', v, t⟩ := e
    simp only [List.map_cons, List.mem_cons] at h
    push_neg at h
    simp only [lookupE, if_neg (fun hh : k' = k => h.1 hh.symm)]
    exact ih h.2

theorem lookupE_of_mem {es : List Entry} (hnd : (es.map (·.1)).Nodup)
    {e : Entry} (he : e ∈ es) : lookupE es e.1 = some (e.2.1, e.2.2) := by
  induction es with
  | nil => simp at he
  | cons x xs ih =>
    simp only [List.map_cons, List.nodup_cons] at hnd
    rcases List.mem_cons.mp he with rfl | he'
    · obtain ⟨k, v, t⟩ := e
      simp [lookupE]
    · obtain ⟨k', v', t'⟩ := x
      have hne : k' ≠ e.1 := by
        intro hh
        exact hnd.1 (hh ▸ List.mem_map.mpr ⟨e, he', rfl⟩)
      simp only [lookupE, if_neg hne]
      exact ih hnd.2 he'

theorem eraseKeyE_length_mem {es : List Entry} (hnd : (es.map (·.1)).Nodup)
    {m : Entry} (hm : m ∈ es) :
    (eraseKeyE es m.1).length = es.length - 1 := by
  induction es with
  | nil => simp at hm
  | cons e es ih =>
    simp only [List.map_cons, List.nodup_cons] at hnd
    by_cases h : e.1 = m.1
    · have hfresh : ∀ e' ∈ es, e'.1 ≠ m.1 := by
        intro e' he' hkey
        exact hnd.1 (h ▸ hkey ▸ List.mem_map.mpr ⟨e', he', rfl⟩)
      simp [eraseKeyE, h, eraseKeyE_fresh hfresh]
    · have hm' : m ∈ es := by
        rcases List.mem_cons.mp hm with heq | h'
        · exact absurd (congrArg Prod.fst heq.symm) h
        · exact h'
      have hlen := ih hnd.2 hm'
      have hpos : 0 < es.length := List.length_pos.mpr (List.ne_nil_of_mem hm')
      simp only [eraseKeyE, if_neg h, List.length_cons, hlen]
      omega

/-- Inserting fresh, pairwise-distinct keys into a cache that has room for
all of them never evicts and appends the entries in order. -/
theorem runSetex_fill : ∀ (ops : List (String × String × Nat)) (c : MemCache),
    (∀ op ∈ ops, lookupE c.entries op.1 = none) →
    (ops.map (·.1)).Nodup →
    c.entries.length + ops.length ≤ c.maxSize →
    runSetex c ops = .ok ⟨c.entries ++ ops, c.maxSize, c.ttl⟩ := by
  intro ops
  induction ops with
  | nil =>
    intro c _ _ _
    obtain ⟨es, ms, t⟩ := c
    simp only [runSetex, List.foldlM, List.append_nil]
    rfl
  | cons op rest ih =>
    intro c hfresh hnd hlen
    obtain ⟨es, ms, t⟩ := c
    simp only [List.length_cons] at hlen
    have hroom : ¬ ms ≤ es.length := by omega
    have hop : lookupE es op.1 = none := hfresh op (by simp)
    simp only [List.map_cons, List.nodup_cons] at hnd
    have step : MemCache.setex ⟨es, ms, t⟩ op.1 0 op.2.1 op.2.2 =
        .ok ⟨es ++ [op], ms, t⟩ := by
      simp only [MemCache.setex, if_neg hroom]
      rw [setValE_fresh hop]
    have hfresh' : ∀ op' ∈ rest, lookupE (es ++ [op]) op'.1 = none := by
      intro op' hop'
      apply lookupE_append_none (hfresh op' (by simp [hop']))
      have hne : op.1 ≠ op'.1 := by
        intro hh
        exact hnd.1 (hh ▸ List.mem_map.mpr ⟨op', hop', rfl⟩)
      obtain ⟨k, v, tt⟩ := op
      simpa [lookupE] using hne
    have := ih ⟨es ++ [op], ms, t⟩ hfresh' hnd.2 (by simp; omega)
    calc runSetex ⟨es, ms, t⟩ (op :: rest)
        = runSetex ⟨es ++ [op], ms, t⟩ rest := by
          simp only [runSetex, List.foldlM_cons, step]
          rfl
      _ = .ok ⟨(es ++ [op]) ++ rest, ms, t⟩ := this
      _ = .ok ⟨es ++ op :: rest, ms, t⟩ := by simp

/-- One `setex` call on a full cache: evict the first entry with minimal
timestamp, then write. -/
theorem setex_evict_step (c : MemCache) (k : String) (ex : Nat) (v : String)
    (now : Nat) {m : Entry} (hcap : c.maxSize ≤ c.entries.length)
    (hm : firstMinE c.entries = some m) :
    c.setex k ex v now =
      .ok ⟨setValE (eraseKeyE c.entries m.1) k v now, c.maxSize, c.ttl⟩ := by
  obtain ⟨es, ms, t⟩ := c
  simp only [MemCache.setex, if_pos hcap, hm]

/-- Discriminator for `Except`: did the call return normally? -/
def isOkE : Except String MemCache → Bool
  | .ok _ => true
  | .error _ => false

/-- C3.  Bounded capacity with oldest-first eviction: from an empty cache of
capacity `C ≥ 1`, inserting `C+1` triples with pairwise-distinct keys and
non-decreasing call times leaves exactly the last `C` entries (the first
key is the only absent one); and whenever `setex` finds the store at or
above capacity it evicts exactly the first entry with minimal stored
timestamp before inserting `(key, value, now)`.  Timestamps are the `now`
arguments, modelling successive `time.time()` readings (hence
non-decreasing). -/
theorem claim_c3 :
    (∀ (C T : Nat), 1 ≤ C → ∀ ops : List (String × String × Nat),
      ops.length = C + 1 → (ops.map (·.1)).Nodup →
      ops.Pairwise (fun a b => a.2.2 ≤ b.2.2) →
      runSetex ⟨[], C, T⟩ ops = .ok ⟨ops.drop 1, C, T⟩ ∧
      (ops.drop 1).length = C ∧
      (∀ e ∈ ops.take 1, lookupE (ops.drop 1) e.1 = none) ∧
      (∀ e ∈ ops.drop 1, lookupE (ops.drop 1) e.1 = some (e.2.1, e.2.2))) ∧
    (∀ (c : MemCache) (k : String) (ex : Nat) (v : String) (now : Nat)
      (m : Entry),
      c.maxSize ≤ c.entries.length → firstMinE c.entries = some m →
      m ∈ c.entries ∧ (∀ e ∈ c.entries, m.2.2 ≤ e.2.2) ∧
      c.setex k ex v now =
        .ok ⟨setValE (eraseKeyE c.entries m.1) k v now, c.maxSize, c.ttl⟩) ∧
    (∀ c : MemCache, c.entries ≠ [] → firstMinE c.entries ≠ none) := by
  refine ⟨?_, ?_, ?_⟩
  · intro C T hC ops hlen hnd hmono
    cases ops using List.reverseRecOn with
    | nil => simp at hlen
    | append_singleton front lastOp _ih =>
      clear _ih
      have hflen : front.length = C := by
        simp only [List.length_append, List.length_singleton] at hlen
        omega
      have hfne : front ≠ [] := by
        intro h
        rw [h] at hflen
        simp at hflen
        omega
      obtain ⟨f₀, frest, rfl⟩ := List.exists_cons_of_ne_nil hfne
      have hndkeys : (f₀.1 :: (frest.map (·.1) ++ [lastOp.1])).Nodup := by
        simpa using hnd
      have hnd1 : f₀.1 ∉ frest.map (·.1) ++ [lastOp.1] :=
        (List.nodup_cons.mp hndkeys).1
      have hnd2 : (frest.map (·.1) ++ [lastOp.1]).Nodup :=
        (List.nodup_cons.mp hndkeys).2
      have hlastfresh : lastOp.1 ∉ frest.map (·.1) := by
        intro hmem
        exact (List.nodup_append.mp hnd2).2.2 hmem (by simp)
      have hfrestne : ∀ e ∈ frest, e.1 ≠ f₀.1 := by
        intro e he hkey
        apply hnd1
        apply List.mem_append_left
        exact List.mem_map.mpr ⟨e, he, hkey⟩
      have hmono2 : List.Pairwise (fun a b => a.2.2 ≤ b.2.2)
          (f₀ :: (frest ++ [lastOp])) := hmono
      have hmin : ∀ x ∈ frest, f₀.2.2 ≤ x.2.2 := by
        intro x hx
        exact (List.pairwise_cons.mp hmono2).1 x
          (List.mem_append_left _ hx)
      have hndfront : ((f₀ :: frest).map (·.1)).Nodup := by
        simp only [List.map_cons, List.nodup_cons]
        refine ⟨?_, hnd2.of_append_left⟩
        intro hmem
        exact hnd1 (List.mem_append_left _ hmem)
      have hfill : runSetex ⟨[], C, T⟩ (f₀ :: frest) = .ok ⟨f₀ :: frest, C, T⟩ := by
        have h := runSetex_fill (f₀ :: frest) ⟨[], C, T⟩
          (fun op _ => rfl) hndfront (by simp [hflen])
        simpa using h
      have hstep : MemCache.setex ⟨f₀ :: frest, C, T⟩ lastOp.1 0 lastOp.2.1 lastOp.2.2 =
          .ok ⟨frest ++ [lastOp], C, T⟩ := by
        have hcap : C ≤ (⟨f₀ :: frest, C, T⟩ : MemCache).entries.length :=
          Nat.le_of_eq hflen.symm
        have hfm : firstMinE (f₀ :: frest) = some f₀ :=
          firstMinE_sorted_head f₀ frest hmin
        have h := setex_evict_step ⟨f₀ :: frest, C, T⟩ lastOp.1 0 lastOp.2.1
          lastOp.2.2 hcap hfm
        rw [h]
        have herase : eraseKeyE (f₀ :: frest) f₀.1 = frest := by
          simp only [eraseKeyE, if_pos rfl]
          exact eraseKeyE_fresh hfrestne
        have hfreshlast : lookupE frest lastOp.1 = none :=
          lookupE_none_of_not_key hlastfresh
        simp only [herase, setValE_fresh hfreshlast]
      have hmain : runSetex ⟨[], C, T⟩ ((f₀ :: frest) ++ [lastOp]) =
          .ok ⟨frest ++ [lastOp], C, T⟩ := by
        simp only [runSetex] at hfill ⊢
        rw [List.foldlM_append, hfill]
        simp only [Bind.bind, Except.bind, List.foldlM_cons, List.foldlM_nil]
        rw [hstep]
        rfl
      have hdrop : ((f₀ :: frest) ++ [lastOp]).drop 1 = frest ++ [lastOp] := rfl
      have htake : ((f₀ :: frest) ++ [lastOp]).take 1 = [f₀] := rfl
      refine ⟨by rw [hdrop]; exact hmain, ?_, ?_, ?_⟩
      · rw [hdrop]
        have hf : frest.length + 1 = C := by simpa using hflen
        simp only [List.length_append, List.length_cons, List.length_nil]
        omega
      · intro e he
        rw [htake] at he
        simp only [List.mem_singleton] at he
        subst he
        rw [hdrop]
        apply lookupE_none_of_not_key
        simpa using hnd1
      · intro e he
        rw [hdrop] at he ⊢
        exact lookupE_of_mem (by simpa using hnd2) he
  · intro c k ex v now m hcap hm
    exact ⟨firstMinE_mem hm, firstMinE_min hm,
      setex_evict_step c k ex v now hcap hm⟩
  · intro c hne
    obtain ⟨es, ms, t⟩ := c
    cases es with
    | nil => exact absurd rfl hne
    | cons e es => simp [firstMinE]

/-- Witness for C3 at capacity `C = 2` with three distinct keys. -/
theorem claim_c3_witness :
    ([("a", "x", (0 : Nat)), ("b", "y", 1), ("c", "z", 2)].map (·.1)).Nodup ∧
    runSetex ⟨[], 2, 3600⟩ [("a", "x", 0), ("b", "y", 1), ("c", "z", 2)] =
      .ok ⟨[("b", "y", 1), ("c", "z", 2)], 2, 3600⟩ := by
  refine ⟨by decide, ?_⟩
  have h := (claim_c3.1 2 3600 (by decide)
    [("a", "x", 0), ("b", "y", 1), ("c", "z", 2)]
    (by decide) (by decide) (by decide)).1
  simpa using h

/-- C4.  The in-memory cache ignores the per-call TTL and applies lazy
expiry against its own fixed default: `get` returns the stored value iff
the elapsed time since the entry's timestamp is below `self.ttl`; an
expired entry is deleted by `get`; an absent key returns `none`; and the
`expire_time` argument passed to `setex` has no effect at all. -/
theorem claim_c4 :
    (∀ (c : MemCache) (k : String) (now : Nat) (v : String) (ts : Nat),
      lookupE c.entries k = some (v, ts) →
      ((c.get k now).1 = some v ↔ now - ts < c.ttl)) ∧
    (∀ (c : MemCache) (k : String) (now : Nat) (v : String) (ts : Nat),
      lookupE c.entries k = some (v, ts) → ¬ (now - ts < c.ttl) →
      c.get k now = (none, ⟨eraseKeyE c.entries k, c.maxSize, c.ttl⟩)) ∧
    (∀ (c : MemCache) (k : String) (now : Nat),
      lookupE c.entries k = none → c.get k now = (none, c)) ∧
    (∀ (c : MemCache) (k : String) (e₁ e₂ : Nat) (v : String) (now : Nat),
      c.setex k e₁ v now = c.setex k e₂ v now) := by
  refine ⟨?_, ?_, ?_, ?_⟩
  · intro c k now v ts hl
    simp only [MemCache.get, hl]
    by_cases h : now - ts < c.ttl
    · simp [h]
    · simp [h]
  · intro c k now v ts hl h
    obtain ⟨es, ms, t⟩ := c
    simp only [MemCache.get] at *
    simp only [hl, if_neg h]
  · intro c k now hl
    simp only [MemCache.get, hl]
  · intro c k e₁ e₂ v now
    rfl

/-- Witness for C4: a fresh entry is returned while within the TTL. -/
theorem claim_c4_witness :
    lookupE (⟨[("k", "v", 5)], 10, 3600⟩ : MemCache).entries "k" = some ("v", 5) ∧
    (((⟨[("k", "v", 5)], 10, 3600⟩ : MemCache).get "k" 6).1 = some "v" ↔
      6 - 5 < 3600) :=
  ⟨by decide, claim_c4.1 ⟨[("k", "v", 5)], 10, 3600⟩ "k" 6 "v" 5 (by decide)⟩

/-- C9 counterexample: a `MemoryCache`/`SimpleCache` configured with
`max_size = 0` raises `ValueError` out of `setex` on the very first insert
(`min()` over the empty dict), so "no cache operation raises to the caller"
fails as stated. -/
theorem claim_c9_counterexample :
    MemCache.setex ⟨[], 0, 3600⟩ "k" 60 "v" 0 =
      .error "ValueError: min() arg is an empty sequence" := rfl

/-- C9 (amended).  Provided the configured capacity is at least 1 or the
store is nonempty, `setex` returns normally (and `get`/`clear` are total
functions of the state, hence always return); the Redis-backed operations
never propagate a client failure: a failing read degrades to absent, and a
failing write or clear is a silent no-op. -/
theorem claim_c9_amended :
    (∀ (c : MemCache) (k : String) (ex : Nat) (v : String) (now : Nat),
      1 ≤ c.maxSize ∨ c.entries ≠ [] → isOkE (c.setex k ex v now) = true) ∧
    (∀ (store : List (String × String)) (k : String),
      redisGet store true k = none) ∧
    (∀ (store : List (String × String)) (k v : String),
      redisSetex store true k v = store) ∧
    (∀ store : List (String × String), redisClear store true = store) := by
  refine ⟨?_, fun _ _ => rfl, fun _ _ _ => rfl, fun _ => rfl⟩
  intro c k ex v now hok
  obtain ⟨es, ms, t⟩ := c
  by_cases hcap : ms ≤ es.length
  · cases es with
    | nil =>
      exfalso
      simp only [List.length_nil, Nat.le_zero] at hcap
      rcases hok with h1 | h2
      · have h1' : (1 : Nat) ≤ ms := h1
        omega
      · exact h2 rfl
    | cons e es' =>
      simp only [MemCache.setex, firstMinE, isOkE]
      split
      · rfl
      · rename_i x a heq
        exfalso
        revert heq
        split <;> intro h <;> cases h
  · simp [MemCache.setex, hcap, isOkE]

/-- Witness for C9 (amended): `setex` on an empty store with capacity 2
returns normally. -/
theorem claim_c9_witness :
    (1 ≤ (⟨[], 2, 3600⟩ : MemCache).maxSize ∨
      (⟨[], 2, 3600⟩ : MemCache).entries ≠ []) ∧
    isOkE (MemCache.setex ⟨[], 2, 3600⟩ "k" 60 "v" 1) = true :=
  ⟨Or.inl (by decide),
    claim_c9_amended.1 ⟨[], 2, 3600⟩ "k" 60 "v" 1 (Or.inl (by decide))⟩

/-- C10.  `setex` on a cache at or above capacity evicts the (first)
minimal-timestamp entry even when the key being written is already
present; when that evicted entry has a different key and the store was
exactly at capacity, the store ends one entry below capacity, the evicted
key is gone, and the written key maps to `(value, now)`. -/
theorem claim_c10 :
    ∀ (c : MemCache) (k : String) (ex : Nat) (v : String) (now : Nat)
      (m : Entry),
      lookupE c.entries k ≠ none →
      c.maxSize ≤ c.entries.length →
      (c.entries.map (·.1)).Nodup →
      firstMinE c.entries = some m →
      (∀ e ∈ c.entries, m.2.2 ≤ e.2.2) ∧
      c.setex k ex v now =
        .ok ⟨setValE (eraseKeyE c.entries m.1) k v now, c.maxSize, c.ttl⟩ ∧
      (m.1 ≠ k → c.entries.length = c.maxSize →
        ((setValE (eraseKeyE c.entries m.1) k v now).length = c.maxSize - 1 ∧
         lookupE (setValE (eraseKeyE c.entries m.1) k v now) m.1 = none ∧
         lookupE (setValE (eraseKeyE c.entries m.1) k v now) k = some (v, now))) := by
  intro c k ex v now m hk hcap hnd hm
  refine ⟨firstMinE_min hm, setex_evict_step c k ex v now hcap hm, ?_⟩
  intro hne hlen
  have hkerase : lookupE (eraseKeyE c.entries m.1) k ≠ none := by
    rw [lookupE_eraseKeyE_ne _ (fun h => hne h.symm)]
    exact hk
  refine ⟨?_, ?_, lookupE_setValE_self _ _ _ _⟩
  · rw [setValE_length_present _ _ _ _ hkerase,
      eraseKeyE_length_mem hnd (firstMinE_mem hm), hlen]
  · rw [lookupE_setValE_ne _ hne, lookupE_eraseKeyE_self]

/-- Witness for C10: a full 2-entry cache, overwriting the newer key "b"
still evicts the older key "a". -/
theorem claim_c10_witness :
    (lookupE [("a", "x", 0), ("b", "y", 1)] "b" ≠ none ∧
      firstMinE [("a", "x", 0), ("b", "y", 1)] = some ("a", "x", 0)) ∧
    MemCache.setex ⟨[("a", "x", 0), ("b", "y", 1)], 2, 3600⟩ "b" 60 "z" 5 =
      .ok ⟨setValE (eraseKeyE [("a", "x", 0), ("b", "y", 1)] "a") "b" "z" 5,
        2, 3600⟩ :=
  ⟨⟨by decide, by decide⟩,
    (claim_c10 ⟨[("a", "x", 0), ("b", "y", 1)], 2, 3600⟩ "b" 60 "z" 5
      ("a", "x", 0) (by decide) (by decide) (by decide) (by decide)).2.1⟩

/-!
### Cache-key derivation (`HuggingFaceAPI._get_cache_key`)

The key is `"hf_cache:" + md5(key_content).hexdigest()` with
`key_content = f"v1:{prompt}:{context}:{json.dumps(params, sort_keys=True)}"`
and `context` either `""` (no prior messages in the session) or the
`json.dumps(..., sort_keys=True)` serialization of the trailing window
`st.session_state.messages[-10:-1]`, each message reduced to its role and
its content truncated to 100 characters.

MD5 is implemented below over byte lists (`Nat` < 256), with UTF-8
encoding of the key material, exactly as `key_content.encode()` does.
-/

/-- Lower-case hexadecimal digit, as used both by Python's `hexdigest` and
by `json.dumps` unicode escapes. -/
def hexDig (n : Nat) : Char :=
  "0123456789abcdef".data.getD n '0'

/-- UTF-8 encoding of one code point (Python `str.encode()`). -/
def utf8Char (c : Char) : List Nat :=
  let v := c.toNat
  if v < 128 then [v]
  else if v < 2048 then [192 + v / 64, 128 + v % 64]
  else if v < 65536 then [224 + v / 4096, 128 + v / 64 % 64, 128 + v % 64]
  else [240 + v / 262144, 128 + v / 4096 % 64, 128 + v / 64 % 64, 128 + v % 64]

/-- UTF-8 encoding of a string. -/
def utf8Bytes (s : String) : List Nat :=
  s.data.flatMap utf8Char

/-- The 64 MD5 sine constants `floor(2^32 * |sin(i+1)|)`. -/
def md5K : List Nat :=
  [3614090360, 3905402710, 606105819, 3250441966, 4118548399, 1200080426, 2821735955, 4249261313,
   1770035416, 2336552879, 4294925233, 2304563134, 1804603682, 4254626195, 2792965006, 1236535329,
   4129170786, 3225465664, 643717713, 3921069994, 3593408605, 38016083, 3634488961, 3889429448,
   568446438, 3275163606, 4107603335, 1163531501, 2850285829, 4243563512, 1735328473, 2368359562,
   4294588738, 2272392833, 1839030562, 4259657740, 2763975236, 1272893353, 4139469664, 3200236656,
   681279174, 3936430074, 3572445317, 76029189, 3654602809, 3873151461, 530742520, 3299628645,
   4096336452, 1126891415, 2878612391, 4237533241, 1700485571, 2399980690, 4293915773, 2240044497,
   1873313359, 4264355552, 2734768916, 1309151649, 4149444226, 3174756917, 718787259, 3951481745]

/-- The MD5 per-round left-rotation amounts. -/
def md5S : List Nat :=
  [7, 12, 17, 22, 7, 12, 17, 22, 7, 12, 17, 22, 7, 12, 17, 22,
   5, 9, 14, 20, 5, 9, 14, 20, 5, 9, 14, 20, 5, 9, 14, 20,
   4, 11, 16, 23, 4, 11, 16, 23, 4, 11, 16, 23, 4, 11, 16, 23,
   6, 10, 15, 21, 6, 10, 15, 21, 6, 10, 15, 21, 6, 10, 15, 21]

/-- 32-bit bitwise complement. -/
def not32 (x : Nat) : Nat := 4294967295 - x

/-- 32-bit left rotation (for `x < 2^32`, `n ≤ 31`). -/
def rotl32 (x n : Nat) : Nat :=
  ((x <<< n) % 4294967296) ||| (x >>> (32 - n))

/-- MD5 padding: append `0x80`, zero-pad to 56 mod 64, append the 64-bit
little-endian bit length. -/
def md5Pad (msg : List Nat) : List Nat :=
  let L := msg.length
  let zeros := (119 - L % 64) % 64
  msg ++ [128] ++ List.replicate zeros 0 ++
    (List.range 8).map (fun j => (L * 8) / 256 ^ j % 256)

/-- Split bytes into little-endian 32-bit words. -/
def leWords : List Nat → List Nat
  | b0 :: b1 :: b2 :: b3 :: rest =>
    (b0 + 256 * b1 + 65536 * b2 + 16777216 * b3) :: leWords rest
  | _ => []

/-- One of the 64 MD5 operations. -/
def md5Step (M : List Nat) (st : Nat × Nat × Nat × Nat) (i : Nat) :
    Nat × Nat × Nat × Nat :=
  let (a, b, c, d) := st
  let f :=
    if i < 16 then (b &&& c) ||| (not32 b &&& d)
    else if i < 32 then (d &&& b) ||| (not32 d &&& c)
    else if i < 48 then b ^^^ c ^^^ d
    else c ^^^ (b ||| not32 d)
  let g :=
    if i < 16 then i
    else if i < 32 then (5 * i + 1) % 16
    else if i < 48 then (3 * i + 5) % 16
    else (7 * i) % 16
  let f' := (f + a + md5K.getD i 0 + M.getD g 0) % 4294967296
  (d, (b + rotl32 f' (md5S.getD i 0)) % 4294967296, b, c)

/-- Process one 64-byte block. -/
def md5Compress (st : Nat × Nat × Nat × Nat) (block : List Nat) :
    Nat × Nat × Nat × Nat :=
  let M := leWords block
  let (a, b, c, d) := (List.range 64).foldl (md5Step M) st
  ((st.1 + a) % 4294967296, (st.2.1 + b) % 4294967296,
   (st.2.2.1 + c) % 4294967296, (st.2.2.2 + d) % 4294967296)

/-- Process all blocks (fuel-based recursion so that the kernel can
evaluate it; the fuel is the padded length, ample since every step
consumes 64 bytes). -/
def md5Blocks : Nat → Nat × Nat × Nat × Nat → List Nat →
    Nat × Nat × Nat × Nat
  | 0, st, _ => st
  | _ + 1, st, [] => st
  | fuel + 1, st, b :: l =>
    md5Blocks fuel (md5Compress st ((b :: l).take 64)) ((b :: l).drop 64)

/-- Little-endian byte decomposition of a 32-bit word. -/
def leBytes (w : Nat) : List Nat :=
  [w % 256, w / 256 % 256, w / 65536 % 256, w / 16777216 % 256]

/-- Two lower-case hex digits of one byte. -/
def hexByte (b : Nat) : List Char :=
  [hexDig (b / 16), hexDig (b % 16)]

/-- `hashlib.md5(bytes).hexdigest()`. -/
def md5Hex (msg : List Nat) : String :=
  let padded := md5Pad msg
  let (a, b, c, d) :=
    md5Blocks padded.length (1732584193, 4023233417, 2562383102, 271733878)
      padded
  ⟨(leBytes a ++ leBytes b ++ leBytes c ++ leBytes d).flatMap hexByte⟩

/-- Four lower-case hex digits (the `XXXX` of a `\uXXXX` escape). -/
def hex4 (n : Nat) : List Char :=
  [hexDig (n / 4096 % 16), hexDig (n / 256 % 16), hexDig (n / 16 % 16),
   hexDig (n % 16)]

/-- `json.dumps` escaping of one character with the default
`ensure_ascii=True`: quote and backslash get a backslash escape, the five
named control characters get their short escapes, all other characters
outside `0x20..0x7e` become `\uXXXX` (a surrogate pair for astral code
points). -/
def escChar (c : Char) : List Char :=
  let v := c.toNat
  if v = 34 then ['\\', '"']
  else if v = 92 then ['\\', '\\']
  else if v = 8 then ['\\', 'b']
  else if v = 9 then ['\\', 't']
  else if v = 10 then ['\\', 'n']
  else if v = 12 then ['\\', 'f']
  else if v = 13 then ['\\', 'r']
  else if v < 32 then '\\' :: 'u' :: hex4 v
  else if v < 127 then [c]
  else if v < 65536 then '\\' :: 'u' :: hex4 v
  else
    '\\' :: 'u' :: hex4 (55296 + (v - 65536) / 1024) ++
      '\\' :: 'u' :: hex4 (56320 + (v - 65536) % 1024)

/-- Escape every character of a character list. -/
def escList (l : List Char) : List Char :=
  l.flatMap escChar

/-- Body of a JSON string literal for `s`. -/
def jsonEscape (s : String) : String :=
  ⟨escList s.data⟩

/-- A JSON string literal: `"` + escaped body + `"`. -/
def dumpStr (s : String) : String :=
  "\"" ++ jsonEscape s ++ "\""

/-- One chat message as stored in `st.session_state.messages`: only the
`role` and `content` fields take part in key derivation. -/
structure Message where
  role : String
  content : String
deriving Repr, DecidableEq

/-- Python character-wise slice `s[:n]`. -/
def strTrunc (s : String) (n : Nat) : String :=
  ⟨s.data.take n⟩

/-- `st.session_state.messages[-10:-1] if len(messages) > 1 else []`: the
trailing window of up to 9 prior messages, excluding the live prompt. -/
def windowOf (h : List Message) : List Message :=
  if 1 < h.length then h.dropLast.drop (h.dropLast.length - 9) else []

/-- The trailing window reduced to `(role, content[:100])` pairs, the exact
data hashed into the cache key. -/
def windowTrunc (h : List Message) : List (String × String) :=
  (windowOf h).map (fun m => (m.role, strTrunc m.content 100))

/-- `json.dumps({"role": r, "content": c[:100]}, sort_keys=True)` for one
window message (keys sort as `content < role`; separators are the Python
defaults `", "` and `": "`). -/
def msgPairDump (p : String × String) : String :=
  "\x7b\"content\": " ++ dumpStr p.2 ++ ", \"role\": " ++ dumpStr p.1 ++ "\x7d"

/-- Comma-space joining of JSON array items. -/
def joinSep : List String → String
  | [] => ""
  | [x] => x
  | x :: xs => x ++ ", " ++ joinSep xs

/-- The `context` component of the key: `""` when the session has no
messages at all, otherwise the serialized trailing window (`"[]"` when the
window itself is empty, e.g. for a single-message history). -/
def contextDump (h : List Message) : String :=
  if h.isEmpty then "" else
    "[" ++ joinSep ((windowTrunc h).map msgPairDump) ++ "]"

/-- The parameter set built by `_get_params` (plus the `stream` flag that
`generate_stream` adds before deriving its key).  The four numeric fields
are modelled by their JSON renderings (`json.dumps` renders Python
ints/floats injectively via `repr`), e.g. `"1024"`, `"0.7"`; `do_sample`
and `return_full_text` are the constants `true` and `false`. -/
structure Params where
  maxNewTokens : String
  temperature : String
  topP : String
  repPenalty : String
  stream : Bool
deriving Repr, DecidableEq

/-- `json.dumps(params, sort_keys=True)`: keys in sorted order
`do_sample, max_new_tokens, repetition_penalty, return_full_text,
[stream,] temperature, top_p`. -/
def paramsDump (p : Params) : String :=
  "\x7b\"do_sample\": true, \"max_new_tokens\": " ++ p.maxNewTokens ++
    ", \"repetition_penalty\": " ++ p.repPenalty ++
    ", \"return_full_text\": false" ++
    (if p.stream then ", \"stream\": true" else "") ++
    ", \"temperature\": " ++ p.temperature ++
    ", \"top_p\": " ++ p.topP ++ "\x7d"

/-- `key_content = f"v1:{prompt}:{context}:{json.dumps(params, sort_keys=True)}"`. -/
def keyContent (prompt : String) (h : List Message) (p : Params) : String :=
  "v1:" ++ prompt ++ ":" ++ contextDump h ++ ":" ++ paramsDump p

/-- `HuggingFaceAPI._get_cache_key`:
`"hf_cache:" + hashlib.md5(key_content.encode()).hexdigest()`. -/
def getCacheKey (prompt : String) (h : List Message) (p : Params) : String :=
  "hf_cache:" ++ md5Hex (utf8Bytes (keyContent prompt h p))

/-- The four tunable generation values read from the Streamlit session
(each given by its JSON rendering, see `Params`). -/
structure SessionParams where
  maxTokens : String
  temperature : String
  topP : String
  repPenalty : String
deriving Repr, DecidableEq

/-- The parameter set `generate` hashes: `_get_params()` alone. -/
def baseParams (s : SessionParams) : Params :=
  ⟨s.maxTokens, s.temperature, s.topP, s.repPenalty, false⟩

/-- The parameter set `generate_stream` hashes: `_get_params()` plus
`params["stream"] = True`, set before `_get_cache_key` is called. -/
def streamParams (s : SessionParams) : Params :=
  ⟨s.maxTokens, s.temperature, s.topP, s.repPenalty, true⟩

/-- The session defaults: `max_tokens 1024, temperature 0.7, top_p 0.9,
rep_penalty 1.1`. -/
def defaultSession : SessionParams :=
  ⟨"1024", "0.7", "0.9", "1.1"⟩

/-! ### String cancellation helpers -/

theorem strAppendLeftCancel {a b c : String} (h : a ++ b = a ++ c) : b = c := by
  apply String.ext
  have h' := congrArg String.data h
  simp only [String.data_append] at h'
  exact List.append_cancel_left h'

theorem strAppendRightCancel {a b c : String} (h : a ++ c = b ++ c) : a = b := by
  apply String.ext
  have h' := congrArg String.data h
  simp only [String.data_append] at h'
  exact List.append_cancel_right h'

theorem strMidCancel (A B : String) {x y : String}
    (h : A ++ (x ++ B) = A ++ (y ++ B)) : x = y :=
  strAppendRightCancel (strAppendLeftCancel h)

set_option maxRecDepth 8000 in
/-- C1 counterexample.  The empty history and a one-message history have
the same (empty) trailing window, yet derive different keys: the empty
history serializes the context as `""` while any nonempty history
serializes its (possibly empty) window, giving `"[]"`. -/
theorem claim_c1_counterexample :
    windowTrunc ([] : List Message) = windowTrunc [⟨"user", "hi"⟩] ∧
    getCacheKey "Hello" [] (baseParams defaultSession) ≠
      getCacheKey "Hello" [⟨"user", "hi"⟩] (baseParams defaultSession) :=
  ⟨rfl, by decide⟩

/-- C1 (amended).  Key derivation is deterministic, and for any two
histories that are both empty or both nonempty, equality of the truncated
trailing windows implies byte-identical keys. -/
theorem claim_c1_amended (prompt : String) (p : Params) (h₁ h₂ : List Message)
    (hemp : h₁ = [] ↔ h₂ = []) (hwin : windowTrunc h₁ = windowTrunc h₂) :
    getCacheKey prompt h₁ p = getCacheKey prompt h₂ p := by
  have hctx : contextDump h₁ = contextDump h₂ := by
    unfold contextDump
    by_cases he : h₁ = []
    · rw [if_pos (by simp [List.isEmpty_iff, he]),
        if_pos (by simp [List.isEmpty_iff, hemp.mp he])]
    · have he₂ : h₂ ≠ [] := fun hh => he (hemp.mpr hh)
      rw [if_neg (by simp [List.isEmpty_iff, he]),
        if_neg (by simp [List.isEmpty_iff, he₂]), hwin]
  unfold getCacheKey keyContent
  rw [hctx]

/-- Witness for C1 (amended): two nonempty histories differing only in
their final message (which is outside the window) derive equal keys. -/
theorem claim_c1_witness :
    (([⟨"user", "A"⟩, ⟨"user", "B"⟩] : List Message) = [] ↔
      ([⟨"user", "A"⟩, ⟨"user", "C"⟩] : List Message) = []) ∧
    windowTrunc [⟨"user", "A"⟩, ⟨"user", "B"⟩] =
      windowTrunc [⟨"user", "A"⟩, ⟨"user", "C"⟩] ∧
    getCacheKey "p" [⟨"user", "A"⟩, ⟨"user", "B"⟩] (baseParams defaultSession) =
      getCacheKey "p" [⟨"user", "A"⟩, ⟨"user", "C"⟩] (baseParams defaultSession) :=
  ⟨by decide, by decide,
    claim_c1_amended "p" (baseParams defaultSession) _ _ (by decide) (by decide)⟩

set_option maxRecDepth 8000 in
/-- C8 counterexample.  With the default parameters, an empty history and
prompt "Hello", the streaming path and the non-streaming path derive
different cache keys, because `generate_stream` sets
`params["stream"] = True` before deriving its key and `generate` does not.
So a response cached by one path is not a cache hit for the other. -/
theorem claim_c8_counterexample :
    getCacheKey "Hello" [] (streamParams defaultSession) ≠
      getCacheKey "Hello" [] (baseParams defaultSession) := by decide

/-- C8 (amended).  Both paths use the same derivation function
`_get_cache_key`, but on different parameter sets: `generate_stream`
hashes `_get_params()` plus `"stream": true`, `generate` hashes
`_get_params()` alone.  The hashed key material therefore always differs
(by exactly the 16 characters of `, "stream": true`), so the keys agree
only in the event of an MD5 collision — and at the default parameters the
keys are in fact different (see the counterexample). -/
theorem claim_c8_amended (s : SessionParams) (prompt : String)
    (h : List Message) :
    keyContent prompt h (streamParams s) ≠ keyContent prompt h (baseParams s) := by
  intro heq
  have hlen := congrArg String.length heq
  simp only [keyContent, streamParams, baseParams, paramsDump,
    String.length_append] at hlen
  simp only [Bool.false_eq_true, if_false, eq_self_iff_true, if_true] at hlen
  have h16 : String.length ", \"stream\": true" = 16 := rfl
  have h0 : String.length "" = 0 := rfl
  omega

/-!
### Injectivity of the `json.dumps` string escaping

To show key sensitivity to window-message contents without assuming
anything about them, we build a decoder `unescF` that is a left inverse of
`escChar`-escaping, which makes `escList` injective.
-/

/-- Value of one hex digit character, lower- or upper-case. -/
def hexVal (c : Char) : Option Nat :=
  let v := c.toNat
  if 48 ≤ v ∧ v ≤ 57 then some (v - 48)
  else if 97 ≤ v ∧ v ≤ 102 then some (v - 87)
  else if 65 ≤ v ∧ v ≤ 70 then some (v - 55)
  else none

theorem hexVal_hexDig {n : Nat} (h : n < 16) : hexVal (hexDig n) = some n := by
  interval_cases n <;> rfl

/-- Parse four hex digits. -/
def hexQuad (a b c d : Char) : Option Nat :=
  match hexVal a, hexVal b, hexVal c, hexVal d with
  | some ha, some hb, some hc, some hd =>
    some (ha * 4096 + hb * 256 + hc * 16 + hd)
  | _, _, _, _ => none

theorem hexQuad_hexDig {w x y z : Nat} (hw : w < 16) (hx : x < 16)
    (hy : y < 16) (hz : z < 16) :
    hexQuad (hexDig w) (hexDig x) (hexDig y) (hexDig z) =
      some (w * 4096 + x * 256 + y * 16 + z) := by
  simp only [hexQuad, hexVal_hexDig hw, hexVal_hexDig hx, hexVal_hexDig hy,
    hexVal_hexDig hz]

/-- Decode the body of one `\uXXXX` escape (consuming a second escape when
the first quad is a high surrogate); returns the decoded character and the
remaining input. -/
def decodeU (a b c d : Char) (rest : List Char) : Option (Char × List Char) :=
  match hexQuad a b c d with
  | none => none
  | some n =>
    if 55296 ≤ n ∧ n ≤ 56319 then
      match rest with
      | '\\' :: 'u' :: a₂ :: b₂ :: c₂ :: d₂ :: rest₂ =>
        match hexQuad a₂ b₂ c₂ d₂ with
        | some m =>
          some (Char.ofNat (65536 + (n - 55296) * 1024 + (m - 56320)), rest₂)
        | none => none
      | _ => none
    else some (Char.ofNat n, rest)

theorem decodeU_bmp (v : Nat) (hv : v < 65536)
    (hns : ¬(55296 ≤ v ∧ v ≤ 56319)) (rest : List Char) :
    decodeU (hexDig (v / 4096 % 16)) (hexDig (v / 256 % 16))
      (hexDig (v / 16 % 16)) (hexDig (v % 16)) rest =
      some (Char.ofNat v, rest) := by
  have hq : hexQuad (hexDig (v / 4096 % 16)) (hexDig (v / 256 % 16))
      (hexDig (v / 16 % 16)) (hexDig (v % 16)) = some v := by
    rw [hexQuad_hexDig (Nat.mod_lt _ (by omega)) (Nat.mod_lt _ (by omega))
      (Nat.mod_lt _ (by omega)) (Nat.mod_lt _ (by omega))]
    congr 1
    omega
  simp only [decodeU, hq, if_neg hns]

theorem decodeU_astral (hi lo : Nat) (hhi1 : 55296 ≤ hi) (hhi2 : hi ≤ 56319)
    (hlo : lo < 65536) (rest : List Char) :
    decodeU (hexDig (hi / 4096 % 16)) (hexDig (hi / 256 % 16))
      (hexDig (hi / 16 % 16)) (hexDig (hi % 16))
      ('\\' :: 'u' :: hexDig (lo / 4096 % 16) :: hexDig (lo / 256 % 16) ::
        hexDig (lo / 16 % 16) :: hexDig (lo % 16) :: rest) =
      some (Char.ofNat (65536 + (hi - 55296) * 1024 + (lo - 56320)), rest) := by
  have hq1 : hexQuad (hexDig (hi / 4096 % 16)) (hexDig (hi / 256 % 16))
      (hexDig (hi / 16 % 16)) (hexDig (hi % 16)) = some hi := by
    rw [hexQuad_hexDig (Nat.mod_lt _ (by omega)) (Nat.mod_lt _ (by omega))
      (Nat.mod_lt _ (by omega)) (Nat.mod_lt _ (by omega))]
    congr 1
    omega
  have hq2 : hexQuad (hexDig (lo / 4096 % 16)) (hexDig (lo / 256 % 16))
      (hexDig (lo / 16 % 16)) (hexDig (lo % 16)) = some lo := by
    rw [hexQuad_hexDig (Nat.mod_lt _ (by omega)) (Nat.mod_lt _ (by omega))
      (Nat.mod_lt _ (by omega)) (Nat.mod_lt _ (by omega))]
    congr 1
    omega
  simp only [decodeU, hq1, if_pos (And.intro hhi1 hhi2), hq2]

/-- Decoder for the short escapes. -/
def unescSimple (e : Char) : Char :=
  if e = '"' then '"'
  else if e = '\\' then '\\'
  else if e = 'b' then Char.ofNat 8
  else if e = 't' then Char.ofNat 9
  else if e = 'n' then Char.ofNat 10
  else if e = 'f' then Char.ofNat 12
  else if e = 'r' then Char.ofNat 13
  else '?'

/-- Fuel-based decoder of an escaped character list (left inverse of the
escaping on encoder outputs; behaviour elsewhere is irrelevant). -/
def unescF : Nat → List Char → List Char
  | 0, _ => []
  | fuel + 1, l =>
    match l with
    | [] => []
    | c :: rest =>
      if c = '\\' then
        match rest with
        | 'u' :: a :: b :: g :: d :: rest₂ =>
          match decodeU a b g d rest₂ with
          | some (ch, rest') => ch :: unescF fuel rest'
          | none => '?' :: unescF fuel rest₂
        | e :: rest₂ => unescSimple e :: unescF fuel rest₂
        | [] => ['\\']
      else c :: unescF fuel rest

theorem unescF_nil (k : Nat) : unescF k [] = [] := by
  cases k <;> rfl

theorem unescF_u (v : Nat) (hv : v < 65536) (hns : ¬(55296 ≤ v ∧ v ≤ 56319))
    (tail : List Char) (fuel : Nat) :
    unescF (fuel + 1) ('\\' :: 'u' :: hex4 v ++ tail) =
      Char.ofNat v :: unescF fuel tail := by
  simp only [hex4, List.cons_append, List.nil_append]
  simp only [unescF, if_pos rfl]
  rw [decodeU_bmp v hv hns tail]
  simp

theorem unescF_uu (hi lo : Nat) (hhi1 : 55296 ≤ hi) (hhi2 : hi ≤ 56319)
    (hlo : lo < 65536) (tail : List Char) (fuel : Nat) :
    unescF (fuel + 1)
      ('\\' :: 'u' :: hex4 hi ++ ('\\' :: 'u' :: hex4 lo ++ tail)) =
      Char.ofNat (65536 + (hi - 55296) * 1024 + (lo - 56320)) ::
        unescF fuel tail := by
  simp only [hex4, List.cons_append, List.nil_append]
  simp only [unescF, if_pos rfl]
  rw [decodeU_astral hi lo hhi1 hhi2 hlo tail]
  simp

theorem unescF_escChar (ch : Char) (tail : List Char) (fuel : Nat) :
    unescF (fuel + 1) (escChar ch ++ tail) = ch :: unescF fuel tail := by
  have hvalid : ch.toNat < 55296 ∨ (57343 < ch.toNat ∧ ch.toNat < 1114112) :=
    ch.valid
  by_cases h34 : ch.toNat = 34
  · have hch : ch = '"' := by rw [← Char.ofNat_toNat ch, h34]
    subst hch
    rfl
  by_cases h92 : ch.toNat = 92
  · have hch : ch = '\\' := by rw [← Char.ofNat_toNat ch, h92]
    subst hch
    rfl
  by_cases h8 : ch.toNat = 8
  · have hch : ch = Char.ofNat 8 := by rw [← Char.ofNat_toNat ch, h8]
    subst hch
    rfl
  by_cases h9 : ch.toNat = 9
  · have hch : ch = Char.ofNat 9 := by rw [← Char.ofNat_toNat ch, h9]
    subst hch
    rfl
  by_cases h10 : ch.toNat = 10
  · have hch : ch = Char.ofNat 10 := by rw [← Char.ofNat_toNat ch, h10]
    subst hch
    rfl
  by_cases h12 : ch.toNat = 12
  · have hch : ch = Char.ofNat 12 := by rw [← Char.ofNat_toNat ch, h12]
    subst hch
    rfl
  by_cases h13 : ch.toNat = 13
  · have hch : ch = Char.ofNat 13 := by rw [← Char.ofNat_toNat ch, h13]
    subst hch
    rfl
  by_cases hctl : ch.toNat < 32
  · have hesc : escChar ch = '\\' :: 'u' :: hex4 ch.toNat := by
      simp [escChar, h34, h92, h8, h9, h10, h12, h13, hctl]
    rw [hesc, unescF_u ch.toNat (by omega) (by omega) tail fuel,
      Char.ofNat_toNat]
  by_cases hplain : ch.toNat < 127
  · have hesc : escChar ch = [ch] := by
      simp [escChar, h34, h92, h8, h9, h10, h12, h13, hctl, hplain]
    rw [hesc]
    have hne : ch ≠ '\\' := fun hh => h92 (by rw [hh]; rfl)
    simp only [List.cons_append, List.nil_append, unescF, if_neg hne]
  by_cases hbmp : ch.toNat < 65536
  · have hesc : escChar ch = '\\' :: 'u' :: hex4 ch.toNat := by
      simp [escChar, h34, h92, h8, h9, h10, h12, h13, hctl, hplain, hbmp]
    rw [hesc, unescF_u ch.toNat hbmp (by omega) tail fuel, Char.ofNat_toNat]
  · have hesc : escChar ch =
        '\\' :: 'u' :: hex4 (55296 + (ch.toNat - 65536) / 1024) ++
          '\\' :: 'u' :: hex4 (56320 + (ch.toNat - 65536) % 1024) := by
      simp [escChar, h34, h92, h8, h9, h10, h12, h13, hctl, hplain, hbmp]
    rw [hesc, List.append_assoc,
      unescF_uu (55296 + (ch.toNat - 65536) / 1024)
        (56320 + (ch.toNat - 65536) % 1024) (by omega) (by omega) (by omega)
        tail fuel]
    have harg : 65536 + (55296 + (ch.toNat - 65536) / 1024 - 55296) * 1024 +
        (56320 + (ch.toNat - 65536) % 1024 - 56320) = ch.toNat := by
      omega
    rw [harg, Char.ofNat_toNat]

theorem unescF_escList : ∀ (s : List Char) (k : Nat) (tail : List Char),
    unescF (s.length + k) (escList s ++ tail) = s ++ unescF k tail := by
  intro s
  induction s with
  | nil =>
    intro k tail
    simp [escList]
  | cons c s' ih =>
    intro k tail
    have hlen : (c :: s').length + k = (s'.length + k) + 1 := by
      simp only [List.length_cons]
      omega
    rw [hlen]
    simp only [escList, List.flatMap_cons, List.append_assoc]
    rw [show (s'.flatMap escChar : List Char) = escList s' from rfl,
      unescF_escChar c (escList s' ++ tail) (s'.length + k), ih k tail]
    rfl

theorem escList_inj {s₁ s₂ : List Char} (h : escList s₁ = escList s₂) :
    s₁ = s₂ := by
  have h₁ := unescF_escList s₁ s₂.length []
  have h₂ := unescF_escList s₂ s₁.length []
  rw [List.append_nil, unescF_nil, List.append_nil] at h₁ h₂
  rw [h] at h₁
  rw [Nat.add_comm] at h₂
  exact h₁.symm.trans h₂

theorem jsonEscape_inj {s₁ s₂ : String} (h : jsonEscape s₁ = jsonEscape s₂) :
    s₁ = s₂ := by
  apply String.ext
  apply escList_inj
  exact congrArg String.data h

theorem dumpStr_inj {s₁ s₂ : String} (h : dumpStr s₁ = dumpStr s₂) :
    s₁ = s₂ := by
  apply jsonEscape_inj
  simp only [dumpStr, String.append_assoc] at h
  exact strAppendRightCancel (strAppendLeftCancel h)

theorem joinSep_cons_ne {l : List String} (hne : l ≠ []) (a : String) :
    joinSep (a :: l) = a ++ ", " ++ joinSep l := by
  cases l with
  | nil => exact absurd rfl hne
  | cons b l' => rfl

theorem joinSep_mid_inj : ∀ (L : List String) {x y : String} (R : List String),
    joinSep (L ++ x :: R) = joinSep (L ++ y :: R) → x = y := by
  intro L
  induction L with
  | nil =>
    intro x y R h
    cases R with
    | nil => simpa [joinSep] using h
    | cons r R' =>
      simp only [List.nil_append] at h
      rw [joinSep_cons_ne (by simp) x, joinSep_cons_ne (by simp) y] at h
      exact strAppendRightCancel (strAppendRightCancel h)
  | cons l L' ih =>
    intro x y R h
    simp only [List.cons_append] at h
    rw [joinSep_cons_ne (by simp) l, joinSep_cons_ne (by simp) l] at h
    exact ih R (strAppendLeftCancel h)

theorem msgPairDump_content_inj {r c₁ c₂ : String}
    (h : msgPairDump (r, c₁) = msgPairDump (r, c₂)) : c₁ = c₂ := by
  apply dumpStr_inj
  simp only [msgPairDump, String.append_assoc] at h
  exact strMidCancel _ _ h

theorem contextDump_of_ne_nil {h : List Message} (hne : h ≠ []) :
    contextDump h =
      "[" ++ (joinSep ((windowTrunc h).map msgPairDump) ++ "]") := by
  rw [contextDump, if_neg (by simp [List.isEmpty_iff, hne]),
    String.append_assoc]

theorem keyContent_assoc (p : String) (h : List Message) (P : Params) :
    keyContent p h P =
      "v1:" ++ (p ++ (":" ++ (contextDump h ++ (":" ++ paramsDump P)))) := by
  simp [keyContent, String.append_assoc]

theorem paramsDump_mnt (P : Params) (x : String) :
    paramsDump { P with maxNewTokens := x } =
      "\x7b\"do_sample\": true, \"max_new_tokens\": " ++
        (x ++ (", \"repetition_penalty\": " ++ (P.repPenalty ++
          (", \"return_full_text\": false" ++
            ((if P.stream then ", \"stream\": true" else "") ++
              (", \"temperature\": " ++ (P.temperature ++
                (", \"top_p\": " ++ (P.topP ++ "\x7d"))))))))) := by
  simp [paramsDump, String.append_assoc]

theorem paramsDump_rep (P : Params) (x : String) :
    paramsDump { P with repPenalty := x } =
      ("\x7b\"do_sample\": true, \"max_new_tokens\": " ++
        (P.maxNewTokens ++ ", \"repetition_penalty\": ")) ++
        (x ++ (", \"return_full_text\": false" ++
          ((if P.stream then ", \"stream\": true" else "") ++
            (", \"temperature\": " ++ (P.temperature ++
              (", \"top_p\": " ++ (P.topP ++ "\x7d"))))))) := by
  simp [paramsDump, String.append_assoc]

theorem paramsDump_temp (P : Params) (x : String) :
    paramsDump { P with temperature := x } =
      ("\x7b\"do_sample\": true, \"max_new_tokens\": " ++
        (P.maxNewTokens ++ (", \"repetition_penalty\": " ++ (P.repPenalty ++
          (", \"return_full_text\": false" ++
            ((if P.stream then ", \"stream\": true" else "") ++
              ", \"temperature\": ")))))) ++
        (x ++ (", \"top_p\": " ++ (P.topP ++ "\x7d"))) := by
  simp [paramsDump, String.append_assoc]

theorem paramsDump_topp (P : Params) (x : String) :
    paramsDump { P with topP := x } =
      ("\x7b\"do_sample\": true, \"max_new_tokens\": " ++
        (P.maxNewTokens ++ (", \"repetition_penalty\": " ++ (P.repPenalty ++
          (", \"return_full_text\": false" ++
            ((if P.stream then ", \"stream\": true" else "") ++
              (", \"temperature\": " ++ (P.temperature ++
                ", \"top_p\": ")))))))) ++
        (x ++ "\x7d") := by
  simp [paramsDump, String.append_assoc]

theorem keyContent_params_cancel {p : String} {h : List Message}
    {P₁ P₂ : Params} (heq : keyContent p h P₁ = keyContent p h P₂) :
    paramsDump P₁ = paramsDump P₂ :=
  strAppendLeftCancel (strAppendLeftCancel (strAppendLeftCancel
    (strAppendLeftCancel (strAppendLeftCancel
      (keyContent_assoc p h P₁ ▸ keyContent_assoc p h P₂ ▸ heq)))))

set_option maxRecDepth 4000 in
/-- C7 counterexample.  Message contents are truncated to 100 characters
before hashing, so changing a window message's content at position 100
(0-based) leaves the derived key unchanged: the two histories below differ
in the content of the (only) message inside the trailing window, yet
`_get_cache_key` returns the identical key. -/
theorem claim_c7_counterexample :
    (String.mk (List.replicate 100 'a') ++ "X" ≠
      String.mk (List.replicate 100 'a') ++ "Y") ∧
    getCacheKey "p"
        [⟨"user", String.mk (List.replicate 100 'a') ++ "X"⟩, ⟨"user", "q"⟩]
        (baseParams defaultSession) =
      getCacheKey "p"
        [⟨"user", String.mk (List.replicate 100 'a') ++ "Y"⟩, ⟨"user", "q"⟩]
        (baseParams defaultSession) := by
  refine ⟨by decide, ?_⟩
  have h : keyContent "p"
      [⟨"user", String.mk (List.replicate 100 'a') ++ "X"⟩, ⟨"user", "q"⟩]
      (baseParams defaultSession) =
    keyContent "p"
      [⟨"user", String.mk (List.replicate 100 'a') ++ "Y"⟩, ⟨"user", "q"⟩]
      (baseParams defaultSession) := by decide
  unfold getCacheKey
  rw [h]

/-- C7 (amended).  Key-material sensitivity: with all other inputs fixed,
changing the prompt text, changing the truncated (first-100-characters)
content of any message inside the trailing window, or changing any single
parameter value (the rendered `max_new_tokens`, `temperature`, `top_p` or
`repetition_penalty` values, or the presence of the `stream` flag) changes
the MD5 input (`key_content`) — hence it changes the derived cache key
except in the event of an MD5 collision on distinct inputs.  Content
changes that only affect characters beyond the 100-character truncation do
not change the key (see the counterexample). -/
theorem claim_c7_amended :
    (∀ (p₁ p₂ : String) (h : List Message) (P : Params),
      p₁ ≠ p₂ → keyContent p₁ h P ≠ keyContent p₂ h P) ∧
    (∀ (p : String) (h₁ h₂ : List Message) (P : Params)
      (a b : List (String × String)) (r c₁ c₂ : String),
      h₁ ≠ [] → h₂ ≠ [] →
      windowTrunc h₁ = a ++ (r, c₁) :: b →
      windowTrunc h₂ = a ++ (r, c₂) :: b →
      c₁ ≠ c₂ → keyContent p h₁ P ≠ keyContent p h₂ P) ∧
    (∀ (p : String) (h : List Message) (P : Params) (x y : String),
      x ≠ y → keyContent p h { P with maxNewTokens := x } ≠
        keyContent p h { P with maxNewTokens := y }) ∧
    (∀ (p : String) (h : List Message) (P : Params) (x y : String),
      x ≠ y → keyContent p h { P with temperature := x } ≠
        keyContent p h { P with temperature := y }) ∧
    (∀ (p : String) (h : List Message) (P : Params) (x y : String),
      x ≠ y → keyContent p h { P with topP := x } ≠
        keyContent p h { P with topP := y }) ∧
    (∀ (p : String) (h : List Message) (P : Params) (x y : String),
      x ≠ y → keyContent p h { P with repPenalty := x } ≠
        keyContent p h { P with repPenalty := y }) ∧
    (∀ (p : String) (h : List Message) (P : Params),
      keyContent p h { P with stream := true } ≠
        keyContent p h { P with stream := false }) := by
  refine ⟨?_, ?_, ?_, ?_, ?_, ?_, ?_⟩
  · intro p₁ p₂ h P hne heq
    rw [keyContent_assoc, keyContent_assoc] at heq
    exact hne (strAppendRightCancel (strAppendLeftCancel heq))
  · intro p h₁ h₂ P a b r c₁ c₂ hne₁ hne₂ hw₁ hw₂ hc heq
    rw [keyContent_assoc, keyContent_assoc] at heq
    have hctx : contextDump h₁ = contextDump h₂ :=
      strAppendRightCancel (strAppendLeftCancel (strAppendLeftCancel
        (strAppendLeftCancel heq)))
    rw [contextDump_of_ne_nil hne₁, contextDump_of_ne_nil hne₂] at hctx
    have hJ := strAppendRightCancel (strAppendLeftCancel hctx)
    rw [hw₁, hw₂] at hJ
    simp only [List.map_append, List.map_cons] at hJ
    exact hc (msgPairDump_content_inj (joinSep_mid_inj _ _ hJ))
  · intro p h P x y hne heq
    have hpd := keyContent_params_cancel heq
    rw [paramsDump_mnt, paramsDump_mnt] at hpd
    exact hne (strMidCancel _ _ hpd)
  · intro p h P x y hne heq
    have hpd := keyContent_params_cancel heq
    rw [paramsDump_temp, paramsDump_temp] at hpd
    exact hne (strMidCancel _ _ hpd)
  · intro p h P x y hne heq
    have hpd := keyContent_params_cancel heq
    rw [paramsDump_topp, paramsDump_topp] at hpd
    exact hne (strMidCancel _ _ hpd)
  · intro p h P x y hne heq
    have hpd := keyContent_params_cancel heq
    rw [paramsDump_rep, paramsDump_rep] at hpd
    exact hne (strMidCancel _ _ hpd)
  · intro p h P heq
    have hlen := congrArg String.length heq
    simp only [keyContent, paramsDump, String.length_append] at hlen
    simp only [Bool.false_eq_true, if_false, eq_self_iff_true, if_true] at hlen
    have h16 : String.length ", \"stream\": true" = 16 := rfl
    have h0 : String.length "" = 0 := rfl
    omega

/-- Witness for C7 (amended): two different prompts give different key
material. -/
theorem claim_c7_witness :
    ("a" : String) ≠ "b" ∧
    keyContent "a" [] (baseParams defaultSession) ≠
      keyContent "b" [] (baseParams defaultSession) :=
  ⟨by decide, claim_c7_amended.1 "a" "b" [] (baseParams defaultSession)
    (by decide)⟩

/-!
### Streaming generation (`HuggingFaceAPI.generate_stream`)

The response stream is `response.iter_lines()`: a list of lines (bytes,
modelled as strings).  Each line is skipped if blank or equal to the
literal `data: [DONE]`; an optional `data: ` framing prefix is stripped;
the remainder is parsed as JSON (`json.loads`, implemented below); an
accepted chunk contributes yielded fragments and text appended to
`full_response`; malformed lines are skipped (the `except` clauses catch
`JSONDecodeError`, `KeyError`, `TypeError`, `IndexError`; a non-string
`generated_text`/`token.text` raises `TypeError` at `full_response += text`
before any mutation or yield, so it skips the line cleanly).
-/

/-- JSON values as produced by `json.loads`.  Numbers keep their lexeme
(their value is never inspected by `generate_stream`); object fields are
kept in parse order and `objGet` returns the last binding of a key,
matching Python dict construction from duplicate keys. -/
inductive JVal where
  | jnull
  | jbool (b : Bool)
  | jnum (lex : String)
  | jstr (s : String)
  | jarr (elems : List JVal)
  | jobj (fields : List (String × JVal))
deriving Repr

/-- JSON whitespace (the four characters `json.loads` skips). -/
def skipWs (l : List Char) : List Char :=
  l.dropWhile (fun c => c == ' ' || c == '\t' || c == '\n' || c == '\r')

/-- Parse the body of a JSON string literal (after the opening quote),
decoding escapes; returns the decoded characters and the input after the
closing quote.  Strict mode: raw control characters and invalid escapes
are rejected.  (Python would accept a lone surrogate in a `\uXXXX`
escape and produce a lone-surrogate str; Lean's `Char` cannot represent
that, so such inputs are rejected here — they cannot occur in well-formed
model output.) -/
def parseStrChars : List Char → Option (List Char × List Char)
  | [] => none
  | c :: rest =>
    if c = '"' then some ([], rest)
    else if c = '\\' then
      match rest with
      | [] => none
      | e :: rest₂ =>
        if e = 'u' then
          match rest₂ with
          | a :: b :: g :: d :: rest₃ =>
            match hexQuad a b g d with
            | none => none
            | some n =>
              if 55296 ≤ n ∧ n ≤ 56319 then
                match rest₃ with
                | '\\' :: 'u' :: a₂ :: b₂ :: g₂ :: d₂ :: rest₄ =>
                  match hexQuad a₂ b₂ g₂ d₂ with
                  | some m =>
                    if 56320 ≤ m ∧ m ≤ 57343 then
                      match parseStrChars rest₄ with
                      | some (cs, r) =>
                        some (Char.ofNat
                          (65536 + (n - 55296) * 1024 + (m - 56320)) :: cs, r)
                      | none => none
                    else none
                  | none => none
                | _ => none
              else if 56320 ≤ n ∧ n ≤ 57343 then none
              else
                match parseStrChars rest₃ with
                | some (cs, r) => some (Char.ofNat n :: cs, r)
                | none => none
          | _ => none
        else
          match
            (if e = '"' then some '"'
             else if e = '\\' then some '\\'
             else if e = '/' then some '/'
             else if e = 'b' then some (Char.ofNat 8)
             else if e = 'f' then some (Char.ofNat 12)
             else if e = 'n' then some (Char.ofNat 10)
             else if e = 'r' then some (Char.ofNat 13)
             else if e = 't' then some (Char.ofNat 9)
             else none : Option Char) with
          | none => none
          | some ch =>
            match parseStrChars rest₂ with
            | some (cs, r) => some (ch :: cs, r)
            | none => none
    else if c.toNat < 32 then none
    else
      match parseStrChars rest with
      | some (cs, r) => some (c :: cs, r)
      | none => none

/-- Longest digit prefix. -/
def digitSpan (l : List Char) : List Char × List Char :=
  l.span (fun c => c.isDigit)

/-- Parse the optional fraction and exponent of a JSON number, given the
lexeme accumulated so far. -/
def parseFracExp (acc : List Char) (l : List Char) :
    Option (List Char × List Char) :=
  match
    (match l with
     | '.' :: r =>
       match digitSpan r with
       | ([], _) => none
       | (ds, r₂) => some (acc ++ '.' :: ds, r₂)
     | _ => some (acc, l) : Option (List Char × List Char)) with
  | none => none
  | some (acc₂, l₂) =>
    match l₂ with
    | e :: r =>
      if e = 'e' || e = 'E' then
        match
          (match r with
           | '+' :: rr => (['+'], rr)
           | '-' :: rr => (['-'], rr)
           | _ => ([], r) : List Char × List Char) with
        | (sgn, r₂) =>
          match digitSpan r₂ with
          | ([], _) => none
          | (ds, r₃) => some (acc₂ ++ e :: (sgn ++ ds), r₃)
      else some (acc₂, l₂)
    | [] => some (acc₂, l₂)

/-- Lex one JSON number (`-? (0 | [1-9][0-9]*) frac? exp?`). -/
def parseNumLex (l : List Char) : Option (List Char × List Char) :=
  match
    (match l with
     | '-' :: r => (['-'], r)
     | _ => ([], l) : List Char × List Char) with
  | (neg, l₁) =>
    match l₁ with
    | '0' :: r => parseFracExp (neg ++ ['0']) r
    | c :: r =>
      if c.isDigit then
        match digitSpan r with
        | (ds, r₂) => parseFracExp (neg ++ c :: ds) r₂
      else none
    | [] => none

/-- Parser modes: a value, the elements after `[`, the fields after
an opening brace. -/
inductive PMode where
  | pv
  | pe
  | pf

/-- Recursive-descent JSON parser (fuel-based so the kernel can evaluate
it; `jsonLoads` supplies ample fuel). -/
def parseF : Nat → PMode → List Char → Option (JVal × List Char)
  | 0, _, _ => none
  | fuel + 1, .pv, l =>
    match skipWs l with
    | 'n' :: 'u' :: 'l' :: 'l' :: r => some (.jnull, r)
    | 't' :: 'r' :: 'u' :: 'e' :: r => some (.jbool true, r)
    | 'f' :: 'a' :: 'l' :: 's' :: 'e' :: r => some (.jbool false, r)
    | '"' :: r =>
      match parseStrChars r with
      | some (cs, r₂) => some (.jstr ⟨cs⟩, r₂)
      | none => none
    | '[' :: r =>
      match skipWs r with
      | ']' :: r₂ => some (.jarr [], r₂)
      | r₂ => parseF fuel .pe r₂
    | '\x7b' :: r =>
      match skipWs r with
      | '\x7d' :: r₂ => some (.jobj [], r₂)
      | r₂ => parseF fuel .pf r₂
    | l' =>
      match parseNumLex l' with
      | some (lex, r) => some (.jnum ⟨lex⟩, r)
      | none => none
  | fuel + 1, .pe, l =>
    match parseF fuel .pv l with
    | none => none
    | some (v, r) =>
      match skipWs r with
      | ',' :: r₂ =>
        match parseF fuel .pe r₂ with
        | some (.jarr vs, r₃) => some (.jarr (v :: vs), r₃)
        | _ => none
      | ']' :: r₂ => some (.jarr [v], r₂)
      | _ => none
  | fuel + 1, .pf, l =>
    match skipWs l with
    | '"' :: r =>
      match parseStrChars r with
      | none => none
      | some (k, r₂) =>
        match skipWs r₂ with
        | ':' :: r₃ =>
          match parseF fuel .pv r₃ with
          | none => none
          | some (v, r₄) =>
            match skipWs r₄ with
            | ',' :: r₅ =>
              match parseF fuel .pf r₅ with
              | some (.jobj fs, r₆) => some (.jobj ((⟨k⟩, v) :: fs), r₆)
              | _ => none
            | '\x7d' :: r₅ => some (.jobj [(⟨k⟩, v)], r₅)
            | _ => none
        | _ => none
    | _ => none

/-- `json.loads`: parse one value, allow surrounding whitespace, reject
trailing garbage. -/
def jsonLoads (s : String) : Option JVal :=
  match parseF (3 * s.length + 8) .pv s.data with
  | some (j, r) => if skipWs r = [] then some j else none
  | none => none

/-- Python dict lookup on the parsed field list: the last binding wins
(later duplicate keys shadow earlier ones during dict construction). -/
def objGet : List (String × JVal) → String → Option JVal
  | [], _ => none
  | (k', v) :: fs, k =>
    match objGet fs k with
    | some r => some r
    | none => if k' = k then some v else none

/-- List-level prefix test (`bytes.startswith`). -/
def strIsPre : List Char → List Char → Bool
  | [], _ => true
  | _ :: _, [] => false
  | p :: ps, c :: cs => p == c && strIsPre ps cs

/-- `if line.startswith(b"data: "): line = line[6:]`. -/
def stripData (line : String) : String :=
  if strIsPre "data: ".data line.data then ⟨line.data.drop 6⟩ else line

/-- `if isinstance(chunk, list) and chunk: chunk = chunk[0]`. -/
def chunkOf (j : JVal) : JVal :=
  match j with
  | .jarr (x :: _) => x
  | _ => j

/-- The chunk dispatch of the `for line in response.iter_lines()` body
for a dict chunk: the fragments the generator yields for that line and
the text appended to `full_response`.  A string-valued `generated_text`
field yields its text one character at a time; otherwise a dict-valued
`token` field yields its `text` value (defaulting to `""` when absent) as
one fragment; a non-string text value raises `TypeError` at
`full_response += text` before any mutation or yield, so it contributes
nothing. -/
def dispatchObj (fs : List (String × JVal)) : List String × String :=
  match objGet fs "generated_text" with
  | some (.jstr t) => (t.data.map String.singleton, t)
  | some _ => ([], "")
  | none =>
    match objGet fs "token" with
    | some (.jobj tfs) =>
      (match objGet tfs "text" with
       | some (.jstr t) => ([t], t)
       | some _ => ([], "")
       | none => ([""], ""))
    | some _ => ([], "")
    | none => ([], "")

/-- Dispatch on the (possibly list-unwrapped) chunk: only dict chunks can
produce output. -/
def dispatchChunk : JVal → List String × String
  | .jobj fs => dispatchObj fs
  | _ => ([], "")

/-- Dispatch on the parse result of a line. -/
def dispatchParsed : Option JVal → List String × String
  | none => ([], "")
  | some j => dispatchChunk (chunkOf j)

/-- Processing of one transport line (skip blank lines and the
`data: [DONE]` sentinel, strip the framing prefix, parse, dispatch). -/
def handleLine (line : String) : List String × String :=
  if line = "" ∨ line = "data: [DONE]" then ([], "")
  else dispatchParsed (jsonLoads (stripData line))

/-- The whole line loop: concatenated fragments and final
`full_response`. -/
def processLines : List String → List String × String
  | [] => ([], "")
  | l :: rest =>
    ((handleLine l).1 ++ (processLines rest).1,
     (handleLine l).2 ++ (processLines rest).2)

/-- Outcome of the transport: either the stream completes with its lines,
or a `RequestException` interrupts it after some prefix of lines. -/
inductive NetResult where
  | ok (lines : List String)
  | fail (linesBefore : List String) (err : String)
deriving Repr, DecidableEq

/-- Observable outcome of one `generate_stream` run: the yielded
fragments, the value written to the cache under the derived key (if any),
and whether the token counters were updated. -/
structure StreamRun where
  fragments : List String
  cacheWrite : Option String
  countersUpdated : Bool
deriving Repr, DecidableEq

/-- The cache-miss path of `generate_stream`: process the lines; if the
stream ends normally with nonempty `full_response`, update counters and
cache it; on a `RequestException`, yield the single synthetic
`f"Error: {e}"` fragment after whatever was already yielded, caching
nothing. -/
def missRun : NetResult → StreamRun
  | .ok lines =>
    if (processLines lines).2 = "" then ⟨(processLines lines).1, none, false⟩
    else ⟨(processLines lines).1, some (processLines lines).2, true⟩
  | .fail before err =>
    ⟨(processLines before).1 ++ ["Error: " ++ err], none, false⟩

/-- `generate_stream` after the cache lookup: on a truthy cached response
it replays the cached text one character at a time and updates counters;
otherwise it runs the miss path (an empty cached string is falsy in
Python and is treated as a miss). -/
def generateStreamRun (cached : Option String) (net : NetResult) :
    StreamRun :=
  match cached with
  | some v =>
    if v = "" then missRun net
    else ⟨v.data.map String.singleton, none, true⟩
  | none => missRun net

/-- Concatenation of the yielded fragments. -/
def concatFrags (l : List String) : String :=
  l.foldr (· ++ ·) ""

theorem strEmptyAppend (s : String) : "" ++ s = s := by
  apply String.ext
  simp [String.data_append, show ("" : String).data = [] from rfl]

theorem concatFrags_append (a b : List String) :
    concatFrags (a ++ b) = concatFrags a ++ concatFrags b := by
  induction a with
  | nil => simp [concatFrags, strEmptyAppend]
  | cons x xs ih =>
    simp only [List.cons_append, concatFrags, List.foldr_cons] at ih ⊢
    rw [ih, String.append_assoc]

theorem concatFrags_singletons : ∀ l : List Char,
    concatFrags (l.map String.singleton) = ⟨l⟩ := by
  intro l
  induction l with
  | nil => rfl
  | cons c cs ih =>
    simp only [List.map_cons, concatFrags, List.foldr_cons] at ih ⊢
    rw [ih]
    apply String.ext
    simp [String.data_append, String.singleton]

theorem strAppendEmpty (s : String) : s ++ "" = s := by
  apply String.ext
  simp [String.data_append, show ("" : String).data = [] from rfl]

theorem dispatchObj_concat (fs : List (String × JVal)) :
    concatFrags (dispatchObj fs).1 = (dispatchObj fs).2 := by
  have hsing : ∀ t : String, concatFrags (t.data.map String.singleton) = t :=
    fun t => concatFrags_singletons t.data
  have hone : ∀ t : String, concatFrags [t] = t := fun t => strAppendEmpty t
  unfold dispatchObj
  split <;> try rfl
  · exact hsing _
  · split <;> try rfl
    split <;> try rfl
    exact hone _

theorem dispatchParsed_concat (o : Option JVal) :
    concatFrags (dispatchParsed o).1 = (dispatchParsed o).2 := by
  cases o with
  | none => rfl
  | some j =>
    show concatFrags (dispatchChunk (chunkOf j)).1 = (dispatchChunk (chunkOf j)).2
    cases chunkOf j with
    | jobj fs => exact dispatchObj_concat fs
    | jnull => rfl
    | jbool b => rfl
    | jnum x => rfl
    | jstr x => rfl
    | jarr x => rfl

theorem handleLine_concat (l : String) :
    concatFrags (handleLine l).1 = (handleLine l).2 := by
  unfold handleLine
  split
  · rfl
  · exact dispatchParsed_concat _

theorem processLines_concat (lines : List String) :
    concatFrags (processLines lines).1 = (processLines lines).2 := by
  induction lines with
  | nil => rfl
  | cons l rest ih =>
    simp only [processLines]
    rw [concatFrags_append, handleLine_concat, ih]

/-- C2.  Streaming reconstruction: on a completed cache-miss run, the
concatenation of all yielded fragments equals the text written to the
cache; on a cache hit with stored text `v` (a hit requires `v` truthy,
i.e. nonempty), the concatenation of the replayed fragments equals `v`
exactly. -/
theorem claim_c2 :
    (∀ (cached : Option String) (lines : List String) (w : String),
      (∀ v, cached = some v → v = "") →
      (generateStreamRun cached (.ok lines)).cacheWrite = some w →
      concatFrags (generateStreamRun cached (.ok lines)).fragments = w) ∧
    (∀ (v : String) (net : NetResult), v ≠ "" →
      concatFrags (generateStreamRun (some v) net).fragments = v) := by
  constructor
  · intro cached lines w hmiss hw
    have hrun : generateStreamRun cached (.ok lines) = missRun (.ok lines) := by
      cases cached with
      | none => rfl
      | some v =>
        have hv : v = "" := hmiss v rfl
        simp [generateStreamRun, hv]
    rw [hrun] at hw ⊢
    simp only [missRun] at hw ⊢
    by_cases hfull : (processLines lines).2 = ""
    · rw [if_pos hfull] at hw
      cases hw
    · rw [if_neg hfull] at hw ⊢
      simp only [Option.some.injEq] at hw
      rw [← hw]
      exact processLines_concat lines
  · intro v net hv
    simp only [generateStreamRun, if_neg hv]
    have := concatFrags_singletons v.data
    simpa using this

/-- Witness for C2: replaying a cached "ab" yields fragments that
concatenate to "ab". -/
theorem claim_c2_witness :
    ("ab" : String) ≠ "" ∧
    concatFrags (generateStreamRun (some "ab") (.ok [])).fragments = "ab" :=
  ⟨by decide, claim_c2.2 "ab" (.ok []) (by decide)⟩

/-- C5.  `generate_stream` writes to the cache iff the remote stream ends
without a transport failure and the accumulated text is nonempty: a
transport failure yields exactly one synthetic `Error: ...` fragment
(after whatever was already yielded) with nothing cached and no counter
update; an empty accumulated text means no write and no counter update; a
nonempty accumulated text is written and counters update; a cache hit
never writes. -/
theorem claim_c5 :
    (∀ (before : List String) (err : String),
      generateStreamRun none (.fail before err) =
        ⟨(processLines before).1 ++ ["Error: " ++ err], none, false⟩) ∧
    (∀ lines : List String, (processLines lines).2 = "" →
      generateStreamRun none (.ok lines) =
        ⟨(processLines lines).1, none, false⟩) ∧
    (∀ lines : List String, (processLines lines).2 ≠ "" →
      generateStreamRun none (.ok lines) =
        ⟨(processLines lines).1, some (processLines lines).2, true⟩) ∧
    (∀ (v : String) (net : NetResult), v ≠ "" →
      (generateStreamRun (some v) net).cacheWrite = none) := by
  refine ⟨fun _ _ => rfl, ?_, ?_, ?_⟩
  · intro lines hfull
    simp [generateStreamRun, missRun, hfull]
  · intro lines hfull
    simp [generateStreamRun, missRun, hfull]
  · intro v net hv
    simp [generateStreamRun, hv]

/-- Witness for C5: a stream with one valid chunk caches its text and
updates the counters. -/
theorem claim_c5_witness :
    (processLines ["data: \x7b\"generated_text\": \"Hi\"\x7d"]).2 ≠ "" ∧
    generateStreamRun none (.ok ["data: \x7b\"generated_text\": \"Hi\"\x7d"]) =
      ⟨(processLines ["data: \x7b\"generated_text\": \"Hi\"\x7d"]).1,
        some (processLines ["data: \x7b\"generated_text\": \"Hi\"\x7d"]).2,
        true⟩ :=
  ⟨by decide, claim_c5.2.2.1 ["data: \x7b\"generated_text\": \"Hi\"\x7d"]
    (by decide)⟩

theorem processLines_append (a b : List String) :
    processLines (a ++ b) =
      ((processLines a).1 ++ (processLines b).1,
       (processLines a).2 ++ (processLines b).2) := by
  induction a with
  | nil => simp [processLines, strEmptyAppend]
  | cons l rest ih =>
    simp only [List.cons_append, processLines, List.append_eq, ih,
      List.append_assoc, String.append_assoc]

